import Mathlib

/-!
Verification of the time-series reading pipeline (timeseries_scripts/read.py).

The development shallowly embeds the parts of the pipeline that the
specification's claims are about:

* the TenneT quarter-hour "position" normalization loop of `read_tennet`;
* pandas `tz_localize(..., ambiguous='infer')` as used by `read_pse` and
  `read_transnetbw` (localization of naive local timestamps on a fall-back
  day, disambiguating the repeated hour by order of occurrence);
* the `combine_first` merge fold of `read`;
* the gap-exposing reindex (`pd.DatetimeIndex(start, end, freq)` + `reindex`);
* the date-range trim (`Europe/Brussels` midnight conversion + `.loc` slice);
* the spring-transition-day row drops of `read_energinet_dk` and
  `read_entso_e_portal`;
* the daily-capacity forward-fill / resample of `read_opsd`;
* the container-skipping / dispatch / merge control flow of `read`.

Timestamps are modelled as minutes (naive local minutes of the day as `Nat`
where a single civil day is concerned, UTC minutes as `Int` elsewhere).
Civil-timezone conversions performed by `pytz`/`pandas` are modelled as
explicit offset arithmetic: on a CET/CEST spring-forward day, local minutes
`m < 120` (before 02:00) carry UTC offset +60 and local minutes `m ≥ 180`
(from 03:00 on) carry offset +120; local minutes in `[120, 180)` do not
exist.  On a fall-back day the minutes in `[120, 180)` occur twice, first
with offset +120 (summer) and then with offset +60 (winter).
-/

/-! ### TenneT position normalization (`read_tennet`)

A raw TenneT row carries a calendar date and a quarter-hour position
(1..96 on regular days).  `read_tennet` runs one pass over the row numbers
`0 .. n-1`; at each row it may rewrite the `pos` column of the whole frame
(the spring-forward correction and the fall-back correction), and finally
recomputes clock time from the corrected position. -/

/-- One raw TenneT row: calendar date (abstract day number, the `Datum`
column after forward-fill) and quarter-hour position (the `Position`
column). -/
structure TRow where
  date : Nat
  pos : Nat
deriving DecidableEq

/-- The spring-forward branch of the loop body of `read_tennet`: if row `i`
has position 92 and is the last row of the frame or is followed by a row
with position 1, every row of the same date with position `≥ 9` gets its
position shifted by `+4`. -/
def tennetSpringStep (rows : List TRow) (i : Nat) : List TRow :=
  match rows.get? i with
  | none => rows
  | some r =>
    if r.pos = 92 ∧ (i = rows.length - 1 ∨ (rows.get? (i + 1)).map TRow.pos = some 1) then
      rows.map fun s =>
        if s.date = r.date ∧ 9 ≤ s.pos then { s with pos := s.pos + 4 } else s
    else rows

/-- The fall-back branch of the loop body of `read_tennet`: if row `i` has
position `> 96`, and it is 100 while no row has position 101, every row of
the same date with position `≥ 13` gets its position shifted by `-4`. -/
def tennetFallStep (rows : List TRow) (i : Nat) : List TRow :=
  match rows.get? i with
  | none => rows
  | some r =>
    if 96 < r.pos then
      if r.pos = 100 ∧ (rows.any fun s => s.pos == 101) = false then
        rows.map fun s =>
          if s.date = r.date ∧ 13 ≤ s.pos then { s with pos := s.pos - 4 } else s
      else rows
    else rows

/-- One iteration of the `read_tennet` loop body: the spring branch runs
first and the fall branch re-reads the possibly rewritten frame, exactly as
the two sequential `if` statements do in the Python loop. -/
def tennetStep (rows : List TRow) (i : Nat) : List TRow :=
  tennetFallStep (tennetSpringStep rows i) i

/-- The whole `for i in range(len(df.index))` loop of `read_tennet`. -/
def tennetNormalize (rows : List TRow) : List TRow :=
  (List.range rows.length).foldl tennetStep rows

/-- `df['hour'] = trunc((pos - 1) / 4)` of `read_tennet`. -/
def tennetHour (pos : Nat) : Nat := (pos - 1) / 4

/-- `df['minute'] = ((pos - 1) % 4) * 15` of `read_tennet`. -/
def tennetMinute (pos : Nat) : Nat := ((pos - 1) % 4) * 15

/-- Local clock time recomputed from a corrected position, in minutes after
local midnight. -/
def tennetLocalMinutes (pos : Nat) : Nat := 60 * tennetHour pos + tennetMinute pos

/-- `tz_localize('Europe/Berlin')` on a spring-forward transition day,
mapping local minutes after midnight to UTC minutes (minutes relative to
UTC midnight of the same calendar day): offset +60 before the jump,
+120 after it, and `none` for the skipped local hour `[120, 180)`
(`Europe/Copenhagen` has the same transition instants). -/
def berlinSpringForwardToUTC (m : Nat) : Option Int :=
  if m < 120 then some ((m : Int) - 60)
  else if m < 180 then none
  else some ((m : Int) - 120)

/-- A spring-forward TenneT day as reported by the source: a single date
whose positions run 1..92. -/
def tennetSpringDay : List TRow := (List.range 92).map fun k => ⟨0, k + 1⟩

set_option maxRecDepth 100000 in
/-- **C1.** On a spring-forward TenneT day whose reported positions run
1..92 (the row with position 92 being the last row of the day), the
normalization loop shifts every row with position `≥ 9` by `+4` (rows
below 9 are untouched), so the corrected positions are `1..8, 13..96`;
recomputing clock time from the corrected positions and localizing on the
transition day yields exactly 92 valid UTC timestamps, 15 minutes apart,
with the post-jump rows one hour later in local clock time. -/
theorem tennet_spring_day_ok :
    (tennetNormalize tennetSpringDay).map TRow.pos
        = ((List.range 8).map fun k => k + 1) ++ ((List.range 84).map fun k => k + 13)
    ∧ ((tennetSpringDay.zip (tennetNormalize tennetSpringDay)).all fun rr =>
        if 9 ≤ rr.1.pos then rr.2.pos == rr.1.pos + 4 else rr.2.pos == rr.1.pos) = true
    ∧ (tennetNormalize tennetSpringDay).map
          (fun r => berlinSpringForwardToUTC (tennetLocalMinutes r.pos))
        = (List.range 92).map fun k => some ((15 : Int) * k - 60) := by
  decide

/-! ### Order-based disambiguation of the fall-back hour
(`tz_localize(..., ambiguous='infer')` in `read_pse` / `read_transnetbw`)

Both adapters localize their naive local timestamp index with pandas'
`ambiguous='infer'`, which — as the adapters' own comments state —
"will attempt to infer dst-transition hours based on order": the first
occurrence of a repeated local reading during the fall-back transition is
summer time (UTC offset +120 for CET/CEST) and the second is winter time
(offset +60).  We model the localization of a list of local timestamps
(minutes after local midnight of a fall-back day, ambiguous range
`[120, 180)`). -/

/-- Localize one naive local timestamp of a fall-back day, given the local
readings already seen earlier in the file: unambiguous readings before
02:00 are summer time (offset +120), readings from 03:00 on are winter
time (offset +60), and an ambiguous reading in `[120, 180)` is summer time
on its first occurrence and winter time when it has already occurred. -/
def inferOffset (seen : List Nat) (t : Nat) : Int :=
  if 120 ≤ t ∧ t < 180 then (if t ∈ seen then (t : Int) - 60 else (t : Int) - 120)
  else if t < 120 then (t : Int) - 120
  else (t : Int) - 60

/-- Localize a whole file's local timestamps in file order, threading the
list of readings already seen. -/
def localizeInferAux : List Nat → List Nat → List Int
  | _, [] => []
  | seen, t :: ts => inferOffset seen t :: localizeInferAux (t :: seen) ts

/-- `df.index.tz_localize('Europe/Berlin', ambiguous='infer')` on a
fall-back day, as a map from the file's local timestamps to UTC minutes. -/
def localizeInfer (ts : List Nat) : List Int := localizeInferAux [] ts

/-- The localization step of `read_pse` (line 90). -/
def pseLocalize (ts : List Nat) : List Int := localizeInfer ts

/-- The localization step of `read_transnetbw` (line 495). -/
def transnetbwLocalize (ts : List Nat) : List Int := localizeInfer ts

theorem localizeInferAux_append (seen xs ys : List Nat) :
    localizeInferAux seen (xs ++ ys)
      = localizeInferAux seen xs ++ localizeInferAux (xs.reverse ++ seen) ys := by
  induction xs generalizing seen with
  | nil => simp [localizeInferAux]
  | cons a l ih =>
    simp only [List.cons_append, localizeInferAux, List.reverse_cons,
      List.append_assoc, List.singleton_append, List.nil_append]
    exact congrArg _ (ih (a :: seen))

theorem localizeInferAux_length (seen ts : List Nat) :
    (localizeInferAux seen ts).length = ts.length := by
  induction ts generalizing seen with
  | nil => rfl
  | cons a l ih => simp [localizeInferAux, ih]

/-- **C2.** For the adapters localizing with the infer-from-order fall-back
policy (`read_pse`, `read_transnetbw`), whenever the input contains two
consecutive occurrences of the same repeated local clock reading of the
fall-back transition (and the reading did not occur earlier in the file),
the first occurrence is resolved to the earlier UTC instant (summer time,
offset +120) and the second to the later one (winter time, offset +60),
matching the physical recording order. -/
theorem infer_fallback_order (pre post : List Nat) (t : Nat)
    (h1 : 120 ≤ t) (h2 : t < 180) (h3 : t ∉ pre) :
    (pseLocalize (pre ++ t :: t :: post)).get? pre.length = some ((t : Int) - 120)
    ∧ (pseLocalize (pre ++ t :: t :: post)).get? (pre.length + 1) = some ((t : Int) - 60)
    ∧ ((t : Int) - 120) < ((t : Int) - 60)
    ∧ transnetbwLocalize (pre ++ t :: t :: post) = pseLocalize (pre ++ t :: t :: post) := by
  have hsplit : pseLocalize (pre ++ t :: t :: post)
      = localizeInferAux [] pre
        ++ (inferOffset pre.reverse t :: inferOffset (t :: pre.reverse) t
            :: localizeInferAux (t :: t :: pre.reverse) post) := by
    simp [pseLocalize, localizeInfer, localizeInferAux_append, localizeInferAux]
  have hlen : (localizeInferAux [] pre).length = pre.length :=
    localizeInferAux_length [] pre
  have hfirst : inferOffset pre.reverse t = (t : Int) - 120 := by
    simp [inferOffset, h1, h2, List.mem_reverse, h3]
  have hsecond : inferOffset (t :: pre.reverse) t = (t : Int) - 60 := by
    simp [inferOffset, h1, h2]
  refine ⟨?_, ?_, by omega, rfl⟩
  · rw [hsplit, List.get?_eq_getElem?,
      List.getElem?_append_right (le_of_eq hlen), hlen, Nat.sub_self]
    simp [hfirst]
  · rw [hsplit, List.get?_eq_getElem?,
      List.getElem?_append_right
        (le_trans (le_of_eq hlen) (Nat.le_succ pre.length)), hlen]
    rw [show pre.length + 1 - pre.length = 1 by omega]
    simp [hsecond]

/-- Witness for `infer_fallback_order`: a fall-back file reading
`1:00, 2:10, 2:10, 3:10` (local minutes `60, 130, 130, 190`): the first
`2:10` localizes to UTC minute 10 and the second to UTC minute 70. -/
theorem infer_fallback_order_witness :
    (pseLocalize ([60] ++ 130 :: 130 :: [190])).get? 1 = some ((130 : Int) - 120)
    ∧ (pseLocalize ([60] ++ 130 :: 130 :: [190])).get? 2 = some ((130 : Int) - 60) := by
  have h := infer_fallback_order [60] [190] 130 (by decide) (by decide) (by decide)
  exact ⟨h.1, h.2.1⟩

/-! ### Aggregation across files (`read`, lines 736-739) -/

/-- A canonical frame viewed through its cells: a possibly missing value
per (UTC timestamp, column) pair, where `none` is a missing or absent cell
(a pandas NaN, or a timestamp/column the frame does not contain). -/
def Frame : Type := Int → Nat → Option Int

/-- The frame with no cells (the initial `data_set = pd.DataFrame()`
before the first file is merged is modelled as `none`, see `mergeStep`;
`emptyFrame` is the same object viewed as a frame). -/
def emptyFrame : Frame := fun _ _ => none

/-- `a.combine_first(b)`: per cell, `a`'s value where non-missing,
otherwise `b`'s. -/
def combineFirst (a b : Frame) : Frame := fun t c => (a t c).orElse fun _ => b t c

/-- One iteration of the accumulation in `read`: `if data_set.empty:
data_set = data_to_add` / `else: data_set = data_set.combine_first(data_to_add)`,
with `none` standing for the still-empty `data_set`. -/
def mergeStep (acc : Option Frame) (f : Frame) : Option Frame :=
  match acc with
  | none => some f
  | some a => some (combineFirst a f)

/-- The aggregate over the ordered frames of one logical series. -/
def mergeAll (fs : List Frame) : Option Frame := fs.foldl mergeStep none

/-- The aggregate viewed as a frame (an empty aggregate has no cells). -/
def mergeAggregate (fs : List Frame) : Frame := (mergeAll fs).getD emptyFrame

/-- First non-missing value of a list of cells. -/
def firstSome : List (Option Int) → Option Int
  | [] => none
  | none :: l => firstSome l
  | some v :: _ => some v

/-- Example frame A: values at timestamps 1 and 2 (every column). -/
def frameA : Frame := fun t _ =>
  if t = 1 then some 10 else if t = 2 then some 20 else none

/-- Example frame B: values at timestamps 2 and 3 (every column),
differing from A at timestamp 2. -/
def frameB : Frame := fun t _ =>
  if t = 2 then some 99 else if t = 3 then some 30 else none

theorem mergeAll_foldl (fs : List Frame) (a : Frame) :
    fs.foldl mergeStep (some a) = some (fs.foldl combineFirst a) := by
  induction fs generalizing a with
  | nil => rfl
  | cons f l ih => simp [List.foldl_cons, mergeStep, ih]

theorem combineFirst_empty (f : Frame) : combineFirst emptyFrame f = f := by
  funext t c
  rfl

theorem foldl_combineFirst_cell (fs : List Frame) (a : Frame) (t : Int) (c : Nat) :
    (fs.foldl combineFirst a) t c
      = (a t c).orElse fun _ => firstSome (fs.map fun f => f t c) := by
  induction fs generalizing a with
  | nil => cases h : a t c <;> simp [firstSome, Option.orElse, h]
  | cons f l ih =>
    simp only [List.foldl_cons, List.map_cons]
    rw [ih]
    cases h : a t c
    · cases h2 : f t c <;> simp [combineFirst, Option.orElse, h, h2, firstSome]
    · simp [combineFirst, Option.orElse, h]

/-- **C3.** The aggregate `read` produces over the ordered frames of one
logical series is the left fold, from the empty frame, of the left-biased
`combine_first`: per cell the first frame in input order supplying a
non-missing value wins, a later frame only fills cells earlier frames left
missing, and an empty running aggregate is replaced by the next frame
unchanged; concretely, merging `frameA` (timestamps 1, 2) with `frameB`
(timestamps 2, 3, differing at 2) keeps A's values at 1 and 2 and takes
B's value at 3. -/
theorem merge_left_biased_fold :
    (∀ (fs : List Frame) (t : Int) (c : Nat),
        mergeAggregate fs t c = (fs.foldl combineFirst emptyFrame) t c)
    ∧ (∀ (fs : List Frame) (t : Int) (c : Nat),
        (fs.foldl combineFirst emptyFrame) t c = firstSome (fs.map fun f => f t c))
    ∧ (∀ f : Frame, mergeStep none f = some f)
    ∧ mergeAggregate [frameA, frameB] 1 0 = some 10
    ∧ mergeAggregate [frameA, frameB] 2 0 = some 20
    ∧ mergeAggregate [frameA, frameB] 3 0 = some 30
    ∧ frameB 2 0 = some 99 := by
  refine ⟨?_, ?_, fun _ => rfl, by decide, by decide, by decide, by decide⟩
  · intro fs t c
    cases fs with
    | nil => rfl
    | cons f l =>
      simp only [mergeAggregate, mergeAll, List.foldl_cons, mergeStep,
        mergeAll_foldl, Option.getD_some, combineFirst_empty]
  · intro fs t c
    rw [foldl_combineFirst_cell]
    rfl

/-! ### Gap-exposing reindex (`read`, lines 749-754) -/

/-- An indexed frame: the list of UTC timestamps of its axis (minutes),
and its cell values.  Only cells at timestamps of `index` are observable
(pandas row lookup). -/
structure IFrame where
  index : List Int
  val : Int → Nat → Option Int

/-- `pd.DatetimeIndex(start=first, end=last, freq=step)`: the regular grid
`first, first + step, …` truncated at `last` (`step` minutes, positive for
the two declared resolutions 15min/60min). -/
def expectedIndex (first last : Int) (step : Nat) : List Int :=
  (List.range ((last - first).toNat / step + 1)).map
    fun (k : Nat) => first + (k : Int) * (step : Int)

/-- `df.reindex(index=newIndex)` with no fill method: a row whose timestamp
is in the old index keeps its values, any other row is all-missing. -/
def pdReindex (f : IFrame) (newIndex : List Int) : IFrame :=
  ⟨newIndex, fun t c => if t ∈ f.index then f.val t c else none⟩

/-- The gap-exposing reindex step of `read`: reindex onto the complete
regular grid from the frame's first to its last timestamp. -/
def gapReindex (f : IFrame) (step : Nat) : IFrame :=
  pdReindex f (expectedIndex (f.index.headD 0) (f.index.getLastD 0) step)

/-- Extensional equality of indexed frames: the same timestamp axis and the
same values at every timestamp of the axis (this is what pandas frame
equality observes). -/
def IFrame.Equiv (f g : IFrame) : Prop :=
  f.index = g.index ∧ ∀ t ∈ g.index, ∀ c, f.val t c = g.val t c

theorem mem_expectedIndex (first last t : Int) (step : Nat) (hs : 0 < step)
    (hfl : first ≤ last) :
    t ∈ expectedIndex first last step
      ↔ first ≤ t ∧ t ≤ last ∧ ((step : Int) ∣ (t - first)) := by
  have hD : (((last - first).toNat : Int)) = last - first :=
    Int.toNat_of_nonneg (sub_nonneg.mpr hfl)
  have hrw : ∀ s : Int, s ∈ expectedIndex first last step
      ↔ ∃ k : Nat, k ∈ List.range ((last - first).toNat / step + 1)
          ∧ first + (k : Int) * step = s := by
    intro s
    unfold expectedIndex
    exact List.mem_map
  rw [hrw]
  constructor
  · intro ht
    rcases ht with ⟨k, hk, hkt⟩
    have hk2 : k < (last - first).toNat / step + 1 := List.mem_range.mp hk
    have hk' : k ≤ (last - first).toNat / step := Nat.lt_succ_iff.mp hk2
    have h1 : (k * step : Nat) ≤ (last - first).toNat :=
      le_trans (Nat.mul_le_mul_right step hk') (Nat.div_mul_le_self _ step)
    have h2 : ((k : Int) * step) ≤ last - first := by
      rw [← hD]
      exact_mod_cast h1
    have h0 : (0 : Int) ≤ (k : Int) * step := by positivity
    refine ⟨by omega, by omega, ⟨k, by rw [← hkt]; ring⟩⟩
  · rintro ⟨h1, h2, c, hc⟩
    have hnn : (0 : Int) ≤ (step : Int) * c := by
      rw [← hc]
      omega
    have hcnn : 0 ≤ c :=
      le_of_mul_le_mul_left (by simpa using hnn) (by exact_mod_cast hs)
    have hct : ((c.toNat : Int)) = c := Int.toNat_of_nonneg hcnn
    refine ⟨c.toNat, List.mem_range.mpr ?_, ?_⟩
    · rw [Nat.lt_succ_iff, Nat.le_div_iff_mul_le hs]
      have h3 : ((c.toNat * step : Nat) : Int) ≤ (((last - first).toNat : Int)) := by
        push_cast [hct, hD]
        linarith [hc, h2]
      exact_mod_cast h3
    · rw [hct]
      linarith [hc]

/-- **C4.** For a non-empty merged frame and a positive resolution step,
the reindexing step of `read` produces a frame whose axis is exactly the
regular grid from the frame's first to its last timestamp stepped by the
resolution (membership characterised below); every grid timestamp that is
absent from the input frame becomes an all-missing row, and rows at input
timestamps are carried over unchanged — nothing is interpolated or
forward-filled. -/
theorem gap_reindex_exposes_gaps (f : IFrame) (step : Nat) (hs : 0 < step)
    (hfl : f.index.headD 0 ≤ f.index.getLastD 0) :
    (gapReindex f step).index
        = expectedIndex (f.index.headD 0) (f.index.getLastD 0) step
    ∧ (∀ t : Int, t ∈ (gapReindex f step).index
        ↔ f.index.headD 0 ≤ t ∧ t ≤ f.index.getLastD 0
          ∧ ((step : Int) ∣ (t - f.index.headD 0)))
    ∧ (∀ (t : Int) (c : Nat), t ∉ f.index → (gapReindex f step).val t c = none)
    ∧ (∀ (t : Int) (c : Nat), t ∈ f.index → (gapReindex f step).val t c = f.val t c) := by
  refine ⟨rfl, fun t => mem_expectedIndex _ _ t step hs hfl, ?_, ?_⟩
  · intro t c ht
    simp [gapReindex, pdReindex, ht]
  · intro t c ht
    simp [gapReindex, pdReindex, ht]

/-- Concrete input for the reindex witnesses: values at UTC minutes 0 and
120 only, resolution 60min. -/
def gapFrame : IFrame :=
  ⟨[0, 120], fun t _ => if t = 0 then some 1 else if t = 120 then some 2 else none⟩

/-- Witness for `gap_reindex_exposes_gaps`: reindexing `gapFrame` at 60min
makes the absent timestamp 60 an all-missing row. -/
theorem gap_reindex_exposes_gaps_witness :
    (gapReindex gapFrame 60).val 60 0 = none
    ∧ (gapReindex gapFrame 60).val 0 0 = gapFrame.val 0 0 := by
  have h := gap_reindex_exposes_gaps gapFrame 60 (by decide) (by decide)
  exact ⟨h.2.2.1 60 0 (by decide), h.2.2.2 0 0 (by decide)⟩

theorem expectedIndex_headD (first last : Int) (step : Nat) :
    (expectedIndex first last step).headD 0 = first := by
  unfold expectedIndex
  rw [List.range_succ_eq_map]
  simp

theorem expectedIndex_getLastD (first last : Int) (step : Nat) :
    (expectedIndex first last step).getLastD 0
      = first + (((last - first).toNat / step : Nat) : Int) * (step : Int) := by
  unfold expectedIndex
  rw [List.range_succ, List.map_append]
  simp

/-- **C8.** Reindexing is idempotent: when a frame's axis is already the
complete regular grid at its resolution from its first to its last
timestamp, the gap-exposing reindex of `read` returns the identical frame
(same axis, same values at every timestamp of the axis). -/
theorem gap_reindex_idempotent (f : IFrame) (a b : Int) (step : Nat) (hs : 0 < step)
    (hidx : f.index = expectedIndex a b step) :
    IFrame.Equiv (gapReindex f step) f := by
  have hhead : f.index.headD 0 = a := by
    rw [hidx]
    exact expectedIndex_headD a b step
  have hlast : f.index.getLastD 0
      = a + (((b - a).toNat / step : Nat) : Int) * (step : Int) := by
    rw [hidx]
    exact expectedIndex_getLastD a b step
  have hsame : expectedIndex (f.index.headD 0) (f.index.getLastD 0) step
      = expectedIndex a b step := by
    rw [hhead, hlast]
    unfold expectedIndex
    have h1 : a + (((b - a).toNat / step : Nat) : Int) * (step : Int) - a
        = ((((b - a).toNat / step * step : Nat)) : Int) := by
      push_cast
      ring
    rw [h1, Int.toNat_natCast, Nat.mul_div_cancel _ hs]
  constructor
  · show expectedIndex (f.index.headD 0) (f.index.getLastD 0) step = f.index
    rw [hsame, hidx]
  · intro t ht c
    simp [gapReindex, pdReindex, ht]

/-- Concrete input for the idempotence witness: a frame whose axis is
already the complete hourly grid `[0, 60, 120]`. -/
def completeFrame : IFrame := ⟨expectedIndex 0 120 60, fun t _ => some t⟩

/-- Witness for `gap_reindex_idempotent`: reindexing `completeFrame` at
60min keeps the axis and the values. -/
theorem gap_reindex_idempotent_witness :
    (gapReindex completeFrame 60).index = completeFrame.index
    ∧ (gapReindex completeFrame 60).val 60 0 = completeFrame.val 60 0 := by
  have h := gap_reindex_idempotent completeFrame 0 120 60 (by decide) rfl
  exact ⟨h.1, h.2 60 (by decide) 0⟩

/-! ### Range trimming (`read`, lines 756-771)

`read` converts the caller's local civil date bounds to UTC — the start
bound at local `Europe/Brussels` midnight, the end bound at local midnight
minus one resolution step (`int(res_key[:2])` minutes) — and then slices
`data_set.loc[start:end, :]`, both ends inclusive, an absent bound meaning
unbounded on that side.  `localize d` below stands for the UTC instant (in
minutes) of local Brussels midnight of civil date `d` (day number). -/

/-- `data_set.loc[start:end, :]` on a sorted axis: keep exactly the
timestamps between the bounds, both ends inclusive; a `none` bound leaves
that side unbounded. -/
def trimFrame (f : IFrame) (startB endB : Option Int) : IFrame :=
  ⟨f.index.filter fun t =>
      (match startB with
       | none => true
       | some s => decide (s ≤ t))
      && (match endB with
          | none => true
          | some e => decide (t ≤ e)),
    f.val⟩

/-- The whole trimming step of `read`: convert the optional local civil
date bounds to UTC (start at local midnight, end at local midnight minus
one resolution step) and slice. -/
def readTrim (f : IFrame) (resMin : Nat) (localize : Nat → Int)
    (startD endD : Option Nat) : IFrame :=
  trimFrame f (startD.map localize) (endD.map fun d => localize d - (resMin : Int))

/-- UTC minutes of local Brussels midnight of day `d` during winter time
(CET, offset +60), with minute 0 at the local midnight of day 0. -/
def brusselsWinterMidnightUTC (d : Nat) : Int := 1440 * (d : Int) - 60

/-- An hourly frame covering local days 0 and 1 (2015-01-01, 2015-01-02)
in UTC minutes. -/
def hourlyJanFrame : IFrame :=
  ⟨expectedIndex (brusselsWinterMidnightUTC 0) (brusselsWinterMidnightUTC 2) 60,
    fun t _ => some t⟩

/-- **C5.** The range trimmer converts the start bound to UTC at local
Brussels midnight and the end bound to UTC at local midnight minus one
resolution step, then keeps exactly the frame timestamps inside `[start,
end]` (inclusive); an absent bound is unbounded on that side.  Concretely,
at resolution 60min with end bound day 1 (2015-01-02 local) on the hourly
winter frame, the last surviving UTC timestamp is 1320 — local
2015-01-01T23:00 — while UTC 1380 (local 2015-01-02T00:00) is cut off. -/
theorem range_trim_ok (f : IFrame) (resMin : Nat) (localize : Nat → Int)
    (ds de : Nat) :
    (readTrim f resMin localize (some ds) (some de)).index
        = f.index.filter
            (fun t => decide (localize ds ≤ t) && decide (t ≤ localize de - (resMin : Int)))
    ∧ (readTrim f resMin localize none (some de)).index
        = f.index.filter (fun t => decide (t ≤ localize de - (resMin : Int)))
    ∧ readTrim f resMin localize none none = f
    ∧ (readTrim f resMin localize none none).val = f.val
    ∧ (readTrim hourlyJanFrame 60 brusselsWinterMidnightUTC none (some 1)).index.getLastD 99
        = 1320
    ∧ brusselsWinterMidnightUTC 1 - 60 = 1320
    ∧ (1320 : Int) + 60 = 23 * 60
    ∧ ((1380 : Int) ∈ hourlyJanFrame.index
        ∧ (1380 : Int) ∉ (readTrim hourlyJanFrame 60 brusselsWinterMidnightUTC none (some 1)).index)
    ∧ (1380 : Int) = brusselsWinterMidnightUTC 1 := by
  refine ⟨rfl, ?_, ?_, rfl, by decide, by decide, by decide, by decide, by decide⟩
  · simp [readTrim, trimFrame]
  · show trimFrame f none none = f
    unfold trimFrame
    simp

/-! ### Spring-transition-day handling of `read_energinet_dk` (lines
180-191) and `read_entso_e_portal` (lines 269-287)

Both sources report a full local day including a row labelled with the
skipped hour; on the spring transition date the adapters drop that row and
then localize.  We model the transition-day path of each adapter on the
hour labels of one day: `read_energinet_dk` works with the re-indexed
hours `hour - 1` (0..23) and drops hour 2, `read_entso_e_portal` works
with the raw 1-based hour labels (1..24), drops raw hour 3
(`raw_hour == '03:00:00'` on a transition date) and re-indexes by
`hour - 1` before localizing.  Copenhagen, Brussels and Berlin share the
transition instants. -/

/-- `df = df[~df.index.isin(dst_transitions_spring)]` of
`read_energinet_dk` on a spring transition date: the rows whose re-indexed
hour is 2 are removed. -/
def energinetDropThird (hours : List Nat) : List Nat :=
  hours.filter fun h => !(h == 2)

/-- The UTC instants `read_energinet_dk` produces for the re-indexed hours
of a spring transition day (drop, then `tz_localize('Europe/Copenhagen')`). -/
def energinetSpringUTC (hours : List Nat) : List (Option Int) :=
  (energinetDropThird hours).map fun h => berlinSpringForwardToUTC (60 * h)

/-- The row drop of `read_entso_e_portal` on a spring transition date:
rows with `raw_hour == '03:00:00'` are removed. -/
def entsoeDropThird (rawHours : List Nat) : List Nat :=
  rawHours.filter fun rh => !(rh == 3)

/-- The UTC instants `read_entso_e_portal` produces for the raw hour
labels of a spring transition day (drop, re-index by `hour - 1`, then
`tz_localize('Europe/Brussels')`). -/
def entsoeSpringUTC (rawHours : List Nat) : List (Option Int) :=
  (entsoeDropThird rawHours).map fun rh => berlinSpringForwardToUTC (60 * (rh - 1))

/-- The local clock reading of a UTC instant of the spring transition day
(the transition happens at UTC minute 60 = local 02:00→03:00). -/
def utcToLocalSpringDay (u : Int) : Int := if u < 60 then u + 60 else u + 120

/-- The localization of the valid local hours of the spring transition day
as a total function (hour 2 does not occur among valid hours). -/
def springLocalHourUTC (h : Nat) : Int :=
  if h < 2 then 60 * (h : Int) - 60 else 60 * (h : Int) - 120

theorem reduceOption_map_some (g : Nat → Int) (l : List Nat) :
    (l.map fun h => some (g h)).reduceOption = l.map g := by
  induction l with
  | nil => rfl
  | cons a t ih => simp [List.reduceOption_cons_of_some, ih]

theorem springUTC_mapped (l : List Nat) (hp : List.Pairwise (· < ·) l)
    (hb : ∀ h ∈ l, h ≤ 23 ∧ h ≠ 2) :
    (l.map fun h => berlinSpringForwardToUTC (60 * h))
        = l.map (fun h => some (springLocalHourUTC h))
    ∧ List.Pairwise (· < ·) (l.map springLocalHourUTC)
    ∧ (l.map springLocalHourUTC).Nodup
    ∧ ∀ u ∈ l.map springLocalHourUTC,
        ¬(120 ≤ utcToLocalSpringDay u ∧ utcToLocalSpringDay u < 180) := by
  have hPW : List.Pairwise (· < ·) (l.map springLocalHourUTC) := by
    refine List.pairwise_map.mpr (hp.imp_of_mem ?_)
    intro a b ha hb2 hab
    rcases hb a ha with ⟨ha1, ha2⟩
    rcases hb b hb2 with ⟨hb1, hb2'⟩
    unfold springLocalHourUTC
    split_ifs <;> omega
  refine ⟨?_, hPW, hPW.imp (fun h => ne_of_lt h), ?_⟩
  · refine List.map_congr_left ?_
    intro h hh
    rcases hb h hh with ⟨hle, hne⟩
    by_cases hlt : h < 2
    · have h120 : 60 * h < 120 := by omega
      simp only [berlinSpringForwardToUTC, springLocalHourUTC, if_pos h120, if_pos hlt]
      refine congrArg some ?_
      omega
    · have h120 : ¬ 60 * h < 120 := by omega
      have h180 : ¬ 60 * h < 180 := by omega
      simp only [berlinSpringForwardToUTC, springLocalHourUTC, if_neg h120,
        if_neg h180, if_neg hlt]
      refine congrArg some ?_
      omega
  · intro u hu
    rcases List.mem_map.mp hu with ⟨h, hh, rfl⟩
    rcases hb h hh with ⟨hle, hne⟩
    unfold springLocalHourUTC utcToLocalSpringDay
    split_ifs <;> omega

/-- **C6.** For the adapters of sources with spring-forward transition
dates (`read_energinet_dk`, `read_entso_e_portal`), on a transition day
with increasing in-range hour labels the produced UTC index consists only
of valid instants (no row corresponds to the skipped local hour
`[02:00, 03:00)`), has no duplicate instants, and is strictly
increasing. -/
theorem spring_forward_index_sound (hours rawHours : List Nat)
    (h1 : List.Pairwise (· < ·) hours) (h2 : ∀ h ∈ hours, h ≤ 23)
    (h3 : List.Pairwise (· < ·) rawHours)
    (h4 : ∀ rh ∈ rawHours, 1 ≤ rh ∧ rh ≤ 24) :
    ((energinetSpringUTC hours).all Option.isSome = true
      ∧ List.Pairwise (· < ·) (energinetSpringUTC hours).reduceOption
      ∧ (energinetSpringUTC hours).reduceOption.Nodup
      ∧ ∀ u ∈ (energinetSpringUTC hours).reduceOption,
          ¬(120 ≤ utcToLocalSpringDay u ∧ utcToLocalSpringDay u < 180))
    ∧ ((entsoeSpringUTC rawHours).all Option.isSome = true
      ∧ List.Pairwise (· < ·) (entsoeSpringUTC rawHours).reduceOption
      ∧ (entsoeSpringUTC rawHours).reduceOption.Nodup
      ∧ ∀ u ∈ (entsoeSpringUTC rawHours).reduceOption,
          ¬(120 ≤ utcToLocalSpringDay u ∧ utcToLocalSpringDay u < 180)) := by
  constructor
  · have hfp : List.Pairwise (· < ·) (energinetDropThird hours) := h1.filter _
    have hfb : ∀ h ∈ energinetDropThird hours, h ≤ 23 ∧ h ≠ 2 := by
      intro h hh
      rcases List.mem_filter.mp hh with ⟨hmem, hcond⟩
      refine ⟨h2 h hmem, ?_⟩
      simpa using hcond
    have hm := springUTC_mapped (energinetDropThird hours) hfp hfb
    have heq : energinetSpringUTC hours
        = (energinetDropThird hours).map (fun h => some (springLocalHourUTC h)) := hm.1
    have hro : (energinetSpringUTC hours).reduceOption
        = (energinetDropThird hours).map springLocalHourUTC := by
      rw [heq, reduceOption_map_some]
    refine ⟨?_, ?_, ?_, ?_⟩
    · rw [heq]
      simp [List.all_eq_true]
    · rw [hro]
      exact hm.2.1
    · rw [hro]
      exact hm.2.2.1
    · rw [hro]
      exact hm.2.2.2
  · have hmm : entsoeSpringUTC rawHours
        = (((entsoeDropThird rawHours).map fun rh => rh - 1).map
            fun h => berlinSpringForwardToUTC (60 * h)) := by
      rw [List.map_map]
      rfl
    have hfmem : ∀ rh ∈ entsoeDropThird rawHours, 1 ≤ rh ∧ rh ≤ 24 ∧ rh ≠ 3 := by
      intro rh hh
      rcases List.mem_filter.mp hh with ⟨hmem, hcond⟩
      rcases h4 rh hmem with ⟨ha, hb2⟩
      refine ⟨ha, hb2, ?_⟩
      simpa using hcond
    have hfp : List.Pairwise (· < ·)
        ((entsoeDropThird rawHours).map fun rh => rh - 1) := by
      refine List.pairwise_map.mpr ((h3.filter _).imp_of_mem ?_)
      intro a b ha hb2 hab
      rcases hfmem a ha with ⟨ha1, _, _⟩
      omega
    have hfb : ∀ h ∈ (entsoeDropThird rawHours).map fun rh => rh - 1,
        h ≤ 23 ∧ h ≠ 2 := by
      intro h hh
      rcases List.mem_map.mp hh with ⟨rh, hmem, rfl⟩
      rcases hfmem rh hmem with ⟨ha, hb2, hc⟩
      omega
    have hm := springUTC_mapped _ hfp hfb
    have heq : entsoeSpringUTC rawHours
        = ((entsoeDropThird rawHours).map fun rh => rh - 1).map
            (fun h => some (springLocalHourUTC h)) := by
      rw [hmm, hm.1]
    have hro : (entsoeSpringUTC rawHours).reduceOption
        = ((entsoeDropThird rawHours).map fun rh => rh - 1).map
            springLocalHourUTC := by
      rw [heq, reduceOption_map_some]
    refine ⟨?_, ?_, ?_, ?_⟩
    · rw [heq]
      simp [List.all_eq_true]
    · rw [hro]
      exact hm.2.1
    · rw [hro]
      exact hm.2.2.1
    · rw [hro]
      exact hm.2.2.2

/-- Witness for `spring_forward_index_sound`: a full transition day,
re-indexed hours 0..23 for energinet.dk and raw hours 1..24 for the
ENTSO-E portal; both produced indexes consist of valid instants only. -/
theorem spring_forward_index_sound_witness :
    ((energinetSpringUTC (List.range 24)).all Option.isSome = true)
    ∧ ((entsoeSpringUTC ((List.range 24).map fun k => k + 1)).all Option.isSome = true) := by
  have h := spring_forward_index_sound (List.range 24)
    ((List.range 24).map fun k => k + 1) (by decide) (by decide) (by decide) (by decide)
  exact ⟨h.1.1, h.2.1⟩

/-! ### Daily capacity forward-fill of `read_opsd` (lines 540-549)

`read_opsd` reads one capacity observation per reported day (pandas puts
it at local midnight), appends a `23:59` timestamp on the last reported
day, forward-fills it (`reindex(index=until_last, method='ffill')`),
converts the index to UTC (`tz_localize('Europe/Berlin')`,
`tz_convert(None)`), and finally `resample('15min').ffill()`.  `off` is
the constant UTC offset of the frame's period in minutes (60 in winter,
120 in summer; both are multiples of the 15-minute grid). -/

/-- Forward-fill lookup: the value of the last point of `pts` (in list
order) whose timestamp is `≤ t`. -/
def ffillAt (pts : List (Int × Int)) (t : Int) : Option Int :=
  pts.foldl (fun acc p => if p.1 ≤ t then some p.2 else acc) none

/-- The observation points of `read_opsd` in UTC minutes: one point per
reported day at local midnight, plus the appended `23:59` point on the
last reported day, which the `ffill` reindex fills with the last day's
value. -/
def opsdUtcPoints (off : Int) (days : List (Nat × Int)) : List (Int × Int) :=
  (days.map fun r => (1440 * (r.1 : Int) - off, r.2))
    ++ [(1440 * ((days.getLastD (0, 0)).1 : Int) + 1439 - off,
         (days.getLastD (0, 0)).2)]

/-- `df.resample('15min').ffill()`: the quarter-hour grid from the first
observation to the appended last instant, each grid point carrying the
last observation at or before it. -/
def opsdProcess (off : Int) (days : List (Nat × Int)) : List (Int × Option Int) :=
  (expectedIndex (((opsdUtcPoints off days).headD (0, 0)).1)
      (((opsdUtcPoints off days).getLastD (0, 0)).1) 15).map
    fun t => (t, ffillAt (opsdUtcPoints off days) t)

theorem getLastD_append_cons {α : Type} (l1 : List α) (x : α) (l2 : List α) (d : α) :
    (l1 ++ x :: l2).getLastD d = l2.getLastD x := by
  induction l1 generalizing d with
  | nil => exact List.getLastD_cons d x l2
  | cons a t ih => rw [List.cons_append, List.getLastD_cons, ih]

theorem getLastD_irrel {α : Type} (l : List α) (hl : l ≠ []) (d e : α) :
    l.getLastD d = l.getLastD e := by
  rw [List.getLastD_eq_getLast?, List.getLastD_eq_getLast?,
    List.getLast?_eq_getLast_of_ne_nil hl]
  rfl

theorem expectedIndex_ne_nil (first last : Int) (step : Nat) :
    expectedIndex first last step ≠ [] := by
  unfold expectedIndex
  simp

theorem ffillAt_append (xs ys : List (Int × Int)) (t : Int) :
    ffillAt (xs ++ ys) t
      = ys.foldl (fun acc p => if p.1 ≤ t then some p.2 else acc) (ffillAt xs t) := by
  unfold ffillAt
  rw [List.foldl_append]

theorem foldl_ffill_of_gt (ys : List (Int × Int)) (t : Int) (acc : Option Int)
    (h : ∀ p ∈ ys, t < p.1) :
    ys.foldl (fun acc p => if p.1 ≤ t then some p.2 else acc) acc = acc := by
  induction ys generalizing acc with
  | nil => rfl
  | cons y l ih =>
    have hy : t < y.1 := h y (List.mem_cons_self y l)
    rw [List.foldl_cons, if_neg (not_le.mpr hy)]
    exact ih acc fun p hp => h p (List.mem_cons_of_mem y hp)

theorem ffillAt_last_le (xs : List (Int × Int)) (a v t : Int) (h : a ≤ t) :
    ffillAt (xs ++ [(a, v)]) t = some v := by
  rw [ffillAt_append, List.foldl_cons, if_pos h]
  rfl

theorem ffillAt_split (P S : List (Int × Int)) (a v t : Int)
    (h1 : a ≤ t) (h2 : ∀ p ∈ S, t < p.1) :
    ffillAt (P ++ (a, v) :: S) t = some v := by
  have hre : P ++ (a, v) :: S = (P ++ [(a, v)]) ++ S := by simp
  rw [hre, ffillAt_append, foldl_ffill_of_gt S t _ h2, ffillAt_last_le P a v t h1]

theorem opsd_ffill_last (off : Int) (days : List (Nat × Int)) (p : Nat × Int)
    (pre : List (Nat × Int)) (hday : days = pre ++ [p]) (t : Int)
    (h1 : 1440 * (p.1 : Int) - off ≤ t)
    (_h2 : t ≤ 1440 * (p.1 : Int) + 1439 - off) :
    ffillAt (opsdUtcPoints off days) t = some p.2 := by
  have hgl : days.getLastD (0, 0) = p := by
    rw [hday, getLastD_append_cons, List.getLastD_nil]
  have hpts : opsdUtcPoints off days
      = (pre.map fun r => (1440 * (r.1 : Int) - off, r.2))
        ++ (1440 * (p.1 : Int) - off, p.2)
          :: [(1440 * (p.1 : Int) + 1439 - off, p.2)] := by
    unfold opsdUtcPoints
    rw [hgl, hday]
    simp
  rcases lt_or_ge t (1440 * (p.1 : Int) + 1439 - off) with hlt | hge
  · rw [hpts]
    refine ffillAt_split _ _ _ _ t h1 ?_
    intro r hr
    rw [List.mem_singleton] at hr
    subst hr
    exact hlt
  · rw [hpts]
    have hre : (pre.map fun r => (1440 * (r.1 : Int) - off, r.2))
        ++ (1440 * (p.1 : Int) - off, p.2)
          :: [(1440 * (p.1 : Int) + 1439 - off, p.2)]
        = ((pre.map fun r => (1440 * (r.1 : Int) - off, r.2))
            ++ [(1440 * (p.1 : Int) - off, p.2)])
          ++ [(1440 * (p.1 : Int) + 1439 - off, p.2)] := by
      simp
    rw [hre]
    exact ffillAt_last_le _ _ _ t hge

theorem opsd_ffill_between (off : Int) (days : List (Nat × Int))
    (hsort : List.Pairwise (fun a b : Nat × Int => a.1 < b.1) days)
    (pre post : List (Nat × Int)) (p q : Nat × Int) (t : Int)
    (hday : days = pre ++ p :: q :: post)
    (h1 : 1440 * (p.1 : Int) - off ≤ t) (h2 : t < 1440 * (q.1 : Int) - off) :
    ffillAt (opsdUtcPoints off days) t = some p.2 := by
  subst hday
  have hpw : List.Pairwise (fun a b : Nat × Int => a.1 < b.1) (p :: q :: post) :=
    (List.pairwise_append.mp hsort).2.1
  have hq_all : ∀ x ∈ post, q.1 < x.1 :=
    (List.pairwise_cons.mp (List.pairwise_cons.mp hpw).2).1
  have hq_le : ∀ x ∈ q :: post, q.1 ≤ x.1 := by
    intro x hx
    rcases List.mem_cons.mp hx with rfl | hx
    · exact le_refl _
    · exact le_of_lt (hq_all x hx)
  have hL : ((pre ++ p :: q :: post).getLastD (0, 0)) ∈ q :: post := by
    rw [getLastD_append_cons, List.getLastD_cons]
    exact List.getLastD_mem_cons post q
  have hLq : (q.1 : Int) ≤ (((pre ++ p :: q :: post).getLastD (0, 0)).1 : Int) := by
    exact_mod_cast hq_le _ hL
  have hpts : opsdUtcPoints off (pre ++ p :: q :: post)
      = (pre.map fun r => (1440 * (r.1 : Int) - off, r.2))
        ++ (1440 * (p.1 : Int) - off, p.2)
          :: (((q :: post).map fun r => (1440 * (r.1 : Int) - off, r.2))
              ++ [(1440 * ((((pre ++ p :: q :: post).getLastD (0, 0)).1 : Int))
                    + 1439 - off,
                   ((pre ++ p :: q :: post).getLastD (0, 0)).2)]) := by
    unfold opsdUtcPoints
    simp
  rw [hpts]
  refine ffillAt_split _ _ _ _ t h1 ?_
  intro r hr
  rcases List.mem_append.mp hr with hr | hr
  · rcases List.mem_map.mp hr with ⟨x, hx, rfl⟩
    have hqx : (q.1 : Int) ≤ (x.1 : Int) := by exact_mod_cast hq_le x hx
    show t < 1440 * (x.1 : Int) - off
    omega
  · rw [List.mem_singleton] at hr
    subst hr
    show t < 1440 * ((((pre ++ p :: q :: post).getLastD (0, 0)).1 : Int)) + 1439 - off
    omega

/-- **C7.** For the daily-resolution capacity adapter (`read_opsd`), every
daily value is forward-filled across all intraday quarter-hours up to the
next reported day: between two consecutive reported days every instant
carries the earlier day's value, on and after the last reported day every
instant up to that day's 23:59 carries its value, and the resampled
quarter-hour grid ends exactly at the last day's 23:45. -/
theorem opsd_forward_fill (off : Int) (days : List (Nat × Int))
    (hsort : List.Pairwise (fun a b : Nat × Int => a.1 < b.1) days) :
    (∀ pre post (p q : Nat × Int) (t : Int), days = pre ++ p :: q :: post →
        1440 * (p.1 : Int) - off ≤ t → t < 1440 * (q.1 : Int) - off →
        ffillAt (opsdUtcPoints off days) t = some p.2)
    ∧ (∀ pre (p : Nat × Int) (t : Int), days = pre ++ [p] →
        1440 * (p.1 : Int) - off ≤ t → t ≤ 1440 * (p.1 : Int) + 1439 - off →
        ffillAt (opsdUtcPoints off days) t = some p.2)
    ∧ (∀ d1 tl, days = d1 :: tl →
        (opsdProcess off days).getLastD (0, none)
          = (1440 * ((days.getLastD (0, 0)).1 : Int) + 1425 - off,
             some (days.getLastD (0, 0)).2)) := by
  refine ⟨fun pre post p q t hday h1 h2 =>
      opsd_ffill_between off days hsort pre post p q t hday h1 h2,
    fun pre p t hday h1 h2 => opsd_ffill_last off days p pre hday t h1 h2, ?_⟩
  intro d1 tl hday
  have hne : days ≠ [] := by
    rw [hday]
    exact List.cons_ne_nil d1 tl
  set L := days.getLastD (0, 0) with hLdef
  have hgetlast : L = days.getLast hne := by
    rw [hLdef, List.getLastD_eq_getLast?, List.getLast?_eq_getLast_of_ne_nil hne]
    rfl
  have hdecomp : days = days.dropLast ++ [L] := by
    rw [hgetlast]
    exact (List.dropLast_append_getLast hne).symm
  have hd1L : d1.1 ≤ L.1 := by
    have hmem : L ∈ d1 :: tl := by
      rw [hLdef, hday, List.getLastD_cons]
      exact List.getLastD_mem_cons tl d1
    rcases List.mem_cons.mp hmem with heq | hmem2
    · rw [heq]
    · have := (List.pairwise_cons.mp (hday ▸ hsort)).1 L hmem2
      exact le_of_lt this
  have hhead : ((opsdUtcPoints off days).headD (0, 0)).1 = 1440 * (d1.1 : Int) - off := by
    rw [hday]
    unfold opsdUtcPoints
    simp
  have hlastpt : ((opsdUtcPoints off days).getLastD (0, 0)).1
      = 1440 * (L.1 : Int) + 1439 - off := by
    unfold opsdUtcPoints
    rw [getLastD_append_cons, List.getLastD_nil]
  have hnegrid := expectedIndex_ne_nil (((opsdUtcPoints off days).headD (0, 0)).1)
    (((opsdUtcPoints off days).getLastD (0, 0)).1) 15
  -- arithmetic on the grid end
  set A := ((opsdUtcPoints off days).headD (0, 0)).1 with hA
  set B := ((opsdUtcPoints off days).getLastD (0, 0)).1 with hB
  have hgridlast : (expectedIndex A B 15).getLastD 0
      = 1440 * (L.1 : Int) + 1425 - off := by
    rw [expectedIndex_getLastD]
    have hk : B - A = ((1440 * (L.1 - d1.1) + 1439 : Nat) : Int) := by
      rw [hhead, hlastpt]
      push_cast
      omega
    rw [hk, Int.toNat_natCast]
    have hdiv : (1440 * (L.1 - d1.1) + 1439) / 15 = 96 * (L.1 - d1.1) + 95 := by
      omega
    rw [hdiv, hhead]
    push_cast
    omega
  have hfilllast : ffillAt (opsdUtcPoints off days)
      ((expectedIndex A B 15).getLastD 0) = some L.2 := by
    refine opsd_ffill_last off days L days.dropLast hdecomp _ ?_ ?_
    · rw [hgridlast]
      omega
    · rw [hgridlast]
      omega
  have hmapD : (opsdProcess off days).getLastD (0, none)
      = ((expectedIndex A B 15).getLastD 0,
         ffillAt (opsdUtcPoints off days) ((expectedIndex A B 15).getLastD 0)) := by
    unfold opsdProcess
    rw [← hA, ← hB]
    rw [getLastD_irrel _ (by simp [hnegrid]) (0, none)
      ((0 : Int), ffillAt (opsdUtcPoints off days) 0)]
    exact List.getLastD_map _ _ 0
  rw [hmapD, hfilllast, hgridlast]

/-- Witness for `opsd_forward_fill`: reported days 0 and 2 (winter offset
60) with capacities 5 and 7; the quarter-hour at UTC minute 1500 (during
day 1, before the next report) still carries 5, and the quarter-hour at
UTC minute 4245 (= local 23:45 of day 2) carries 7. -/
theorem opsd_forward_fill_witness :
    ffillAt (opsdUtcPoints 60 [(0, 5), (2, 7)]) 1500 = some 5
    ∧ ffillAt (opsdUtcPoints 60 [(0, 5), (2, 7)]) 4245 = some 7 := by
  have h := opsd_forward_fill 60 [(0, 5), (2, 7)] (by decide)
  exact ⟨h.1 [] [] (0, 5) (2, 7) 1500 rfl (by decide) (by decide),
    h.2.1 [(0, 5)] (2, 7) 4245 rfl (by decide) (by decide)⟩

/-! ### The control flow of `read` (lines 648-747)

`read` walks the containers of `<out_path>/<source>/<variable>`: it skips
containers excluded by the user's date bounds (parsed with `yaml.load`
from the underscore-split container name), warns and skips containers with
zero or several files or an undersized file, dispatches the remaining file
through the `if/elif` source chain, and merges the result into the running
aggregate.  The chain has no `else`: an unrecognised source name leaves
`data_to_add` unassigned, so the merge step raises `UnboundLocalError`;
the branch for `'RTE'` calls `read_rte`, which does not exist (`NameError`). -/

/-- The failures the container loop of `read` can raise. -/
inductive ReadError : Type
  | unboundLocal
  | nameError
  | indexError
deriving DecidableEq

/-- The source names recognised by the `if/elif` dispatch chain. -/
def knownSources : List String :=
  ["OPSD", "CEPS", "ENTSO-E Data Portal", "Energinet.dk", "Elia", "PSE", "RTE",
   "Svenska Kraftnaet", "50Hertz", "Amprion", "TenneT", "TransnetBW"]

/-- One file of a container: its byte size and the canonical frame its
adapter would produce. -/
structure FileData where
  size : Nat
  frame : Frame

/-- One container directory: the date tokens of its underscore-split name
(`yaml.load(container.split('_')[i])`, abstract day numbers) and its
files. -/
structure Container where
  toks : List Nat
  files : List FileData

/-- The `if/elif` adapter dispatch of `read` for one file. -/
def dispatch (source : String) (parsed : Frame) : Except ReadError Frame :=
  if source = "RTE" then Except.error ReadError.nameError
  else if source ∈ knownSources then Except.ok parsed
  else Except.error ReadError.unboundLocal

/-- The container-skipping checks of `read` (lines 666-674): when a start
bound is given, skip if it is later than the date parsed from the token
after the first underscore; otherwise, when an end bound is given, skip if
it is earlier than the date parsed from the token before the first
underscore.  A missing token raises `IndexError`. -/
def skipByDates (startU endU : Option Nat) (toks : List Nat) :
    Except ReadError Bool :=
  match startU with
  | some s =>
    match toks.get? 1 with
    | none => Except.error ReadError.indexError
    | some d1 =>
      if d1 < s then Except.ok true
      else
        match endU with
        | some e =>
          match toks.get? 0 with
          | none => Except.error ReadError.indexError
          | some d0 => Except.ok (decide (e < d0))
        | none => Except.ok false
  | none =>
    match endU with
    | some e =>
      match toks.get? 0 with
      | none => Except.error ReadError.indexError
      | some d0 => Except.ok (decide (e < d0))
    | none => Except.ok false

/-- Processing of one container: date skip, the one-file-per-container
checks, the 128-byte size check, dispatch, and the merge into the running
aggregate. -/
def processContainer (source : String) (startU endU : Option Nat)
    (acc : Option Frame) (c : Container) : Except ReadError (Option Frame) := do
  let skip ← skipByDates startU endU c.toks
  if skip then
    pure acc
  else
    match c.files with
    | [f] =>
      if f.size < 128 then
        pure acc
      else do
        let frame ← dispatch source f.frame
        pure (mergeStep acc frame)
    | _ => pure acc

/-- The `for container in os.listdir(variable_dir)` loop of `read`,
starting from the empty `data_set`. -/
def readLoop (source : String) (startU endU : Option Nat)
    (cs : List Container) : Except ReadError (Option Frame) :=
  cs.foldlM (processContainer source startU endU) none

/-- `read` up to its empty-result early return: a missing variable
directory returns the empty frame at once (a warning only); otherwise the
containers are processed in order.  `Except.ok none` is `read` returning
an explicitly empty result. -/
def readModel (source : String) (dirExists : Bool) (startU endU : Option Nat)
    (cs : List Container) : Except ReadError (Option Frame) :=
  if dirExists then readLoop source startU endU cs else Except.ok none

/-- **C9 (counterexample).** The claim says every `read` call with an
unknown source name fails with a fatal configuration error surfaced
immediately; but a call for the unknown source `"Acme"` whose variable
directory does not exist returns an (empty) result with only a warning —
no error at all. -/
theorem unknown_source_silent_empty :
    readModel "Acme" false none none [] = Except.ok none
    ∧ "Acme" ∉ knownSources := by
  constructor
  · rfl
  · decide

/-- **C9 (amended).** Unknown source names are not validated up front: a
`read` call for an unknown source returns an empty result silently
whenever its variable directory is missing, and fails — with the unbound
`data_to_add` surfacing at the merge step, not an immediate configuration
check — only when a file of the unknown source is actually processed. -/
theorem unknown_source_failure_modes (source : String)
    (hs : source ∉ knownSources) (toks : List Nat) (f : FileData)
    (hf : 128 ≤ f.size) (cs : List Container) (startU endU : Option Nat) :
    readModel source false startU endU cs = Except.ok none
    ∧ readModel source true none none [⟨toks, [f]⟩]
        = Except.error ReadError.unboundLocal := by
  have hrte : source ≠ "RTE" := by
    intro h
    exact hs (h ▸ (by decide : "RTE" ∈ knownSources))
  have hdisp : dispatch source f.frame = Except.error ReadError.unboundLocal := by
    unfold dispatch
    rw [if_neg hrte, if_neg hs]
  constructor
  · rfl
  · show readLoop source none none [⟨toks, [f]⟩] = Except.error ReadError.unboundLocal
    unfold readLoop
    simp only [List.foldlM_cons, List.foldlM_nil]
    unfold processContainer
    simp [skipByDates, hdisp, Nat.not_lt.mpr hf]
    rfl

/-- Witness for `unknown_source_failure_modes`: source `"Acme"`, one
container with one 200-byte file. -/
theorem unknown_source_failure_modes_witness :
    readModel "Acme" false none none [] = Except.ok none
    ∧ readModel "Acme" true none none [⟨[0], [⟨200, emptyFrame⟩]⟩]
        = Except.error ReadError.unboundLocal :=
  unknown_source_failure_modes "Acme" (by decide) [0] ⟨200, emptyFrame⟩
    (by decide) [] none none

theorem skipByDates_true_of (startU endU : Option Nat) (toks : List Nat)
    (h : (∃ s d1, startU = some s ∧ toks.get? 1 = some d1 ∧ d1 < s)
       ∨ ((startU = none
            ∨ ∃ s d1, startU = some s ∧ toks.get? 1 = some d1 ∧ ¬ d1 < s)
          ∧ ∃ e d0, endU = some e ∧ toks.get? 0 = some d0 ∧ e < d0)) :
    skipByDates startU endU toks = Except.ok true := by
  rcases h with ⟨s, d1, hs, hd, hlt⟩ | ⟨hstart, e, d0, he, hd0, hlt⟩
  · subst hs
    unfold skipByDates
    rw [hd]
    simp [hlt]
  · subst he
    rcases hstart with hnone | ⟨s, d1, hs, hd, hge⟩
    · subst hnone
      unfold skipByDates
      rw [hd0]
      simp [hlt]
    · subst hs
      unfold skipByDates
      rw [hd, hd0]
      simp [hge, hlt]

theorem processContainer_skip (source : String) (startU endU : Option Nat)
    (acc : Option Frame) (c : Container)
    (h : skipByDates startU endU c.toks = Except.ok true) :
    processContainer source startU endU acc c = Except.ok acc := by
  unfold processContainer
  rw [h]
  rfl

theorem foldlM_skip (source : String) (startU endU : Option Nat)
    (c : Container) (hskip : skipByDates startU endU c.toks = Except.ok true)
    (pre post : List Container) (acc : Option Frame) :
    List.foldlM (processContainer source startU endU) acc (pre ++ c :: post)
      = List.foldlM (processContainer source startU endU) acc (pre ++ post) := by
  induction pre generalizing acc with
  | nil =>
    rw [List.nil_append, List.nil_append, List.foldlM_cons,
      processContainer_skip source startU endU acc c hskip]
    rfl
  | cons a l ih =>
    rw [List.cons_append, List.cons_append, List.foldlM_cons, List.foldlM_cons]
    cases hpa : processContainer source startU endU acc a with
    | error e => rfl
    | ok acc2 => exact ih acc2

/-- **C10.** Before any file of a container is read, `read` skips the
whole container when the caller's start bound is later than the date
parsed from the token after the first underscore of the container name,
or (the start check passing first) when the end bound is earlier than the
date parsed from the token before the first underscore; a skipped
container contributes no data to the result. -/
theorem container_date_skip (source : String) (startU endU : Option Nat)
    (pre post : List Container) (c : Container)
    (h : (∃ s d1, startU = some s ∧ c.toks.get? 1 = some d1 ∧ d1 < s)
       ∨ ((startU = none
            ∨ ∃ s d1, startU = some s ∧ c.toks.get? 1 = some d1 ∧ ¬ d1 < s)
          ∧ ∃ e d0, endU = some e ∧ c.toks.get? 0 = some d0 ∧ e < d0)) :
    skipByDates startU endU c.toks = Except.ok true
    ∧ readLoop source startU endU (pre ++ c :: post)
        = readLoop source startU endU (pre ++ post) := by
  have hskip := skipByDates_true_of startU endU c.toks h
  exact ⟨hskip, foldlM_skip source startU endU c hskip pre post none⟩

/-- Witness for `container_date_skip`: container name tokens `3_5` with a
start bound of day 10 (the container's period ends before the requested
start): the container is skipped and contributes nothing. -/
theorem container_date_skip_witness :
    skipByDates (some 10) none ([3, 5] : List Nat) = Except.ok true
    ∧ readLoop "PSE" (some 10) none ([] ++ (⟨[3, 5], []⟩ : Container) :: [])
        = readLoop "PSE" (some 10) none ([] ++ []) :=
  container_date_skip "PSE" (some 10) none [] [] ⟨[3, 5], []⟩
    (Or.inl ⟨10, 5, rfl, rfl, by decide⟩)
